import Mathlib

/-!
ConcurrentCrawler: the raw request parser and the semaphore of the dispatch loop.

A shallow embedding of `parseRawRequest` (src/q.go, lines 46-100) and of the
semaphore protocol of the dispatch loop in `main` (src/q.go, lines 167-189).

Go strings and byte slices are lists of bytes, a byte being a natural number.
The Go library functions the parser calls (`bufio.Reader.ReadString`,
`strings.TrimSpace`, `strings.SplitN`, `strings.Index`, `strings.HasPrefix`,
`io.ReadAll`, `fmt.Sprintf`, the builtin map) are modelled next to it.
-/

namespace Crawler

/-! ## Bytes and string literals -/

/-- A Go string or byte slice. -/
abbrev Bytes := List Nat

/-- The bytes of an ASCII string literal of the source. -/
def lit (s : String) : Bytes := s.toList.map Char.toNat

/-! ## The library functions used by the parser -/

/-- The ASCII white space of `strings.TrimSpace`: tab, line feed, vertical tab,
form feed, carriage return and space. -/
def asciiSpace (c : Nat) : Bool :=
  c == 9 || c == 10 || c == 11 || c == 12 || c == 13 || c == 32

/-- The two-byte UTF-8 encodings of white space: U+0085 and U+00A0. -/
def space2 (b0 b1 : Nat) : Bool :=
  b0 == 0xC2 && (b1 == 0x85 || b1 == 0xA0)

/-- The three-byte UTF-8 encodings of white space: U+1680, U+2000 to U+200A,
U+2028, U+2029, U+202F, U+205F and U+3000. -/
def space3 (b0 b1 b2 : Nat) : Bool :=
  (b0 == 0xE1 && b1 == 0x9A && b2 == 0x80) ||
  (b0 == 0xE2 && b1 == 0x80 &&
    ((0x80 ≤ b2 && b2 ≤ 0x8A) || b2 == 0xA8 || b2 == 0xA9 || b2 == 0xAF)) ||
  (b0 == 0xE2 && b1 == 0x81 && b2 == 0x9F) ||
  (b0 == 0xE3 && b1 == 0x80 && b2 == 0x80)

/-- The encodings read from their last byte, for the removal at the end. -/
def space2r (b1 b0 : Nat) : Bool := space2 b0 b1

/-- The three-byte encodings read from their last byte. -/
def space3r (b2 b1 b0 : Nat) : Bool := space3 b0 b1 b2

/-- Removal of the white space (`unicode.IsSpace`) at the front of a string, as
`strings.TrimSpace` does it: the UTF-8 encoded white space code points at the
front are dropped, one after the other; the first byte that does not start such
an encoding (also a byte of invalid UTF-8) ends the removal. The encodings of
two and three bytes are the parameters `p2` and `p3`. -/
def stripSpace (p2 : Nat → Nat → Bool) (p3 : Nat → Nat → Nat → Bool) : Bytes → Bytes
  | [] => []
  | b0 :: t0 =>
    if asciiSpace b0 then stripSpace p2 p3 t0
    else match t0 with
      | [] => [b0]
      | b1 :: t1 =>
        if p2 b0 b1 then stripSpace p2 p3 t1
        else match t1 with
          | [] => [b0, b1]
          | b2 :: t2 =>
            if p3 b0 b1 b2 then stripSpace p2 p3 t2 else b0 :: b1 :: b2 :: t2

/-- Whether a string begins with white space. -/
def leadSpace (p2 : Nat → Nat → Bool) (p3 : Nat → Nat → Nat → Bool) : Bytes → Bool
  | [] => false
  | [b0] => asciiSpace b0
  | [b0, b1] => asciiSpace b0 || p2 b0 b1
  | b0 :: b1 :: b2 :: _ => asciiSpace b0 || p2 b0 b1 || p3 b0 b1 b2

/-- Removal of the leading white space of a string (`strings.TrimLeftFunc` with
`unicode.IsSpace`). -/
def trimLeft (s : Bytes) : Bytes := stripSpace space2 space3 s

/-- Removal of the trailing white space of a string (`strings.TrimRightFunc`
with `unicode.IsSpace`): the removal at the front of the reversed string. -/
def trimRight (s : Bytes) : Bytes := (stripSpace space2r space3r s.reverse).reverse

/-- The function `strings.TrimSpace`: the string without its leading and
trailing white space, as defined by Unicode. Go removes ASCII white space byte
by byte and, from the first byte that is not ASCII, decodes UTF-8 forward at
the front and backward at the end; a decoded rune is white space exactly at one
of the encodings of `asciiSpace`, `space2` and `space3`, and a byte of invalid
UTF-8 decodes to `RuneError`, which is not white space and stays. -/
def trimSpace (s : Bytes) : Bytes := trimRight (trimLeft s)

/-- The method `bufio.Reader.ReadString`: the bytes up to and including the
first `delim`, the reader after them, and whether the end of the input came
before a delimiter (the error of the call; the bytes read so far are returned
with it). -/
def readString (delim : Nat) : Bytes → Bytes × Bytes × Bool
  | [] => ([], [], true)
  | c :: cs =>
    if c = delim then ([c], cs, false)
    else
      let r := readString delim cs
      (c :: r.1, r.2.1, r.2.2)

/-- The function `strings.Index` for a separator of one byte. -/
def index (sep : Nat) : Bytes → Option Nat
  | [] => none
  | c :: cs => if c = sep then some 0 else (index sep cs).map (· + 1)

/-- The loop of `strings.SplitN` (`genSplit`): at most `n` cuts at `sep`, the
rest of the string being the last element. -/
def genSplit (sep : Nat) : Nat → Bytes → List Bytes
  | 0, s => [s]
  | n + 1, s =>
    match index sep s with
    | none => [s]
    | some m => s.take m :: genSplit sep n (s.drop (m + 1))

/-- The function `strings.SplitN` for a separator of one byte and `n ≥ 0`. -/
def splitN (s : Bytes) (sep : Nat) (n : Nat) : List Bytes :=
  if n = 0 then [] else genSplit sep (min n (s.length + 1) - 1) s

/-- The function `strings.HasPrefix`. -/
def hasPrefix (s pre : Bytes) : Bool := pre.isPrefixOf s

/-- A Go `map[string]string`, as the list of its entries; `set` keeps the keys
distinct. -/
abbrev Headers := List (Bytes × Bytes)

/-- The map read `m[k]` with its presence flag. -/
def Headers.get : Headers → Bytes → Option Bytes
  | [], _ => none
  | (k, v) :: m, key => if k = key then some v else Headers.get m key

/-- The map write `m[k] = v`. -/
def Headers.set : Headers → Bytes → Bytes → Headers
  | [], key, val => [(key, val)]
  | (k, v) :: m, key, val =>
    if k = key then (k, val) :: m else (k, v) :: Headers.set m key val

/-! ## The parser -/

/-- The struct `RequestTemplate`. -/
structure RequestTemplate where
  Name : Bytes
  Method : Bytes
  URL : Bytes
  Headers : Headers
  Body : Bytes
  deriving DecidableEq

/-- The errors `parseRawRequest` returns, one for each `fmt.Errorf` of the
function; `fuel` is the model's own, for a header loop that ran out of steps,
and is never returned (`parseRawRequest_fuel`). -/
inductive ParseError where
  | readRequestLine
  | requestLineFormat
  | missingHost
  | fuel
  deriving DecidableEq

/-- The header loop of `parseRawRequest` (lines 61-77): the reader and the map
go in, the map and the reader after the loop come out. -/
def readHeaders : Nat → Bytes → Headers → Option (Headers × Bytes)
  | 0, _, _ => none
  | fuel + 1, reader, headers =>
    let r := readString 10 reader
    let line := r.1
    if r.2.2 ∨ line = [13, 10] ∨ line = [10] then some (headers, r.2.1)
    else
      let line := trimSpace line
      if line = [] then some (headers, r.2.1)
      else
        match index 58 line with
        | none => readHeaders fuel r.2.1 headers
        | some sep =>
          let key := trimSpace (line.take sep)
          let value := trimSpace (line.drop (sep + 1))
          readHeaders fuel r.2.1 (headers.set key value)

/-- The URL resolution of `parseRawRequest` (lines 81-92). -/
def resolveURL (path : Bytes) (headers : Headers) : Except ParseError Bytes :=
  if !hasPrefix path (lit "http") then
    match headers.get (lit "Host") with
    | none => .error .missingHost
    | some host =>
      let scheme := if hasPrefix path (lit "http://") then lit "http" else lit "https"
      .ok (scheme ++ lit "://" ++ host ++ path)
  else .ok path

/-- The function `parseRawRequest`. -/
def parseRawRequest (data : Bytes) : Except ParseError RequestTemplate :=
  let r := readString 10 data
  if r.2.2 then .error .readRequestLine
  else
    let firstLine := trimSpace r.1
    match splitN firstLine 32 3 with
    | method :: path :: _ =>
      match readHeaders (r.2.1.length + 1) r.2.1 [] with
      | none => .error .fuel
      | some (headers, body) =>
        match resolveURL path headers with
        | .error e => .error e
        | .ok url =>
          .ok { Name := [], Method := method, URL := url, Headers := headers, Body := body }
    | _ => .error .requestLineFormat

/-- The request line as the parser splits it: the first line, trimmed. -/
def requestLine (data : Bytes) : Bytes := trimSpace (readString 10 data).1

/-- The fields of the request line (`parts`). -/
def requestFields (data : Bytes) : List Bytes := splitN (requestLine data) 32 3

/-- The state after the header loop on the input: the header map and the unread
bytes. -/
def headerLoop (data : Bytes) : Headers × Bytes :=
  let rest := (readString 10 data).2.1
  (readHeaders (rest.length + 1) rest []).getD ([], [])

/-- The header map the parser builds from the input (`headers`). -/
def parsedHeaders (data : Bytes) : Headers := (headerLoop data).1

/-- The template of a successful parse, from the request fields, the resolved
URL and the state after the header loop. -/
def templateOf (data method url : Bytes) : RequestTemplate :=
  { Name := [], Method := method, URL := url,
    Headers := parsedHeaders data, Body := (headerLoop data).2 }

/-! ## The semaphore of the dispatch loop -/

/-- Where the coordinator stands in the body of the `for range templates` loop
(lines 178-184): before `sem <- struct{}{}`, or after it and before the `go`
statement. -/
inductive Coord where
  | idle
  | holding
  deriving DecidableEq

/-- The state of the semaphore protocol: the tokens in the channel `sem`, the
coordinator, the goroutines inside `sendRequest` and the goroutines whose
`sendRequest` has returned and whose deferred `<-sem` has not run yet. -/
structure Dispatch where
  sem : Nat
  coord : Coord
  sending : Nat
  releasing : Nat
  deriving DecidableEq

/-- The sends in flight: the goroutines started and not yet through `<-sem`. -/
def Dispatch.inFlight (s : Dispatch) : Nat := s.sending + s.releasing

/-- The steps of the protocol: the coordinator's `sem <- struct{}{}`, its `go`
statement, the return of a `sendRequest` (whatever its outcome) and the
deferred `<-sem` of a goroutine. -/
inductive Event where
  | acquire
  | spawn
  | finish
  | release
  deriving DecidableEq

/-- One step for a channel of capacity `k`; `none` when the step is not enabled
(a send on the full channel blocks). -/
def step (k : Nat) (s : Dispatch) : Event → Option Dispatch
  | .acquire =>
    if s.coord = .idle ∧ s.sem < k then some { s with sem := s.sem + 1, coord := .holding }
    else none
  | .spawn =>
    if s.coord = .holding then some { s with coord := .idle, sending := s.sending + 1 }
    else none
  | .finish =>
    if 0 < s.sending then
      some { s with sending := s.sending - 1, releasing := s.releasing + 1 }
    else none
  | .release =>
    if 0 < s.releasing ∧ 0 < s.sem then
      some { s with sem := s.sem - 1, releasing := s.releasing - 1 }
    else none

/-- The state before the loop: `sem := make(chan struct{}, threads)`. -/
def Dispatch.init : Dispatch := { sem := 0, coord := .idle, sending := 0, releasing := 0 }

/-- A run of the protocol from a state. -/
def run (k : Nat) : Dispatch → List Event → Option Dispatch
  | s, [] => some s
  | s, e :: es =>
    match step k s e with
    | none => none
    | some s1 => run k s1 es

/-- The tokens in the channel count the coordinator's pending `go` statement and
the sends in flight, and fit the capacity. -/
def Dispatch.Inv (k : Nat) (s : Dispatch) : Prop :=
  s.sem = s.inFlight + (if s.coord = .holding then 1 else 0) ∧ s.sem ≤ k

/-! ## Lines -/

/-- A line with its terminator: the last byte is a line feed, the only one. -/
def isLine (l : Bytes) : Bool := decide (l.getLast? = some 10 ∧ 10 ∉ l.dropLast)

/-! ## Notions for the white space removal -/

/-- What the removal needs of the encodings of two and three bytes: their bytes
are not ASCII, and no encoding begins another. -/
structure SpaceCode (p2 : Nat → Nat → Bool) (p3 : Nat → Nat → Nat → Bool) : Prop where
  two : ∀ a b, p2 a b = true → 128 ≤ a ∧ 128 ≤ b
  three : ∀ a b c, p3 a b c = true → 128 ≤ a ∧ 128 ≤ b ∧ 128 ≤ c ∧ p2 a b = false

/-- A string that neither begins nor ends with white space: what
`strings.TrimSpace` returns and leaves as it is. -/
def Clean (s : Bytes) : Prop :=
  leadSpace space2 space3 s = false ∧ leadSpace space2r space3r s.reverse = false

/-- The header entry of a line, in the words of the specification: no entry for
a line without a colon; else the key is the trimmed text before the first colon
and the value the trimmed text after it. -/
def headerEntry (line : Bytes) : Option (Bytes × Bytes) :=
  match index 58 line with
  | none => none
  | some i => some (trimSpace (line.take i), trimSpace (line.drop (i + 1)))

/-! ## The header map in the words of the specification -/

/-- The lines of an input that end with a newline, in order; bytes after the
last newline are no such line. -/
def terminatedLines : Bytes → List Bytes
  | [] => []
  | c :: cs =>
    if c = 10 then [c] :: terminatedLines cs
    else
      match terminatedLines cs with
      | [] => []
      | l :: ls => (c :: l) :: ls

/-- The lines up to, and without, the first line that is empty once trimmed. -/
def untilBlank (lines : List Bytes) : List Bytes :=
  lines.takeWhile (fun l => decide (trimSpace l ≠ []))

/-- The map built from entries in order: a later entry overwrites an earlier one
with the same key. -/
def insertAll (es : List (Bytes × Bytes)) (headers : Headers) : Headers :=
  es.foldl (fun h e => h.set e.1 e.2) headers

/-- The value of the last entry with the key. -/
def lastValue (es : List (Bytes × Bytes)) (key : Bytes) : Option Bytes :=
  (es.reverse.find? (fun e => decide (e.1 = key))).map (·.2)

/-- The entries of the header lines of an input: the newline-terminated lines
after the request line up to the first blank one, those without a colon
skipped. -/
def headerEntries (data : Bytes) : List (Bytes × Bytes) :=
  (untilBlank (terminatedLines data).tail).filterMap headerEntry

/-- The header map of an input in the words of the specification. -/
def specHeaders (data : Bytes) : Headers := insertAll (headerEntries data) []

/-! ## The round trip of the header map -/

/-- The header lines `key: value`, one per entry, each ending with a newline. -/
def serialize (es : List (Bytes × Bytes)) : Bytes :=
  (es.map (fun e => e.1 ++ lit ": " ++ e.2 ++ [10])).flatten

/-- What holds of the entries the parser puts into the map: key and value are
trimmed, the key has no colon, neither has a newline. -/
def GoodEntry (e : Bytes × Bytes) : Prop :=
  Clean e.1 ∧ Clean e.2 ∧ 58 ∉ e.1 ∧ 10 ∉ e.1 ∧ 10 ∉ e.2

/-! ## Facts about the library functions -/

theorem readString_err_iff (d : Nat) (s : Bytes) :
    (readString d s).2.2 = true ↔ d ∉ s := by
  induction s with
  | nil => simp [readString]
  | cons c cs ih =>
    by_cases h : c = d
    · simp [readString, h]
    · simp [readString, h, ih, Ne.symm h]

theorem readString_err_rest (d : Nat) (s : Bytes) (h : (readString d s).2.2 = true) :
    (readString d s).2.1 = [] := by
  induction s with
  | nil => simp [readString]
  | cons c cs ih =>
    by_cases hc : c = d
    · simp [readString, hc] at h
    · simp [readString, hc] at h ⊢
      exact ih h

theorem readString_append (d : Nat) (pre rest : Bytes) (h : d ∉ pre) :
    readString d (pre ++ d :: rest) = (pre ++ [d], rest, false) := by
  induction pre with
  | nil => simp [readString]
  | cons c cs ih =>
    have hc : c ≠ d := fun e => h (by simp [e])
    have hcs : d ∉ cs := fun e => h (by simp [e])
    simp [readString, hc, ih hcs]

theorem readString_split (d : Nat) (s : Bytes) (h : (readString d s).2.2 = false) :
    ∃ pre, d ∉ pre ∧ (readString d s).1 = pre ++ [d] ∧
      s = pre ++ d :: (readString d s).2.1 := by
  induction s with
  | nil => simp [readString] at h
  | cons c cs ih =>
    by_cases hc : c = d
    · exact ⟨[], by simp [readString, hc]⟩
    · simp only [readString, hc, if_false] at h ⊢
      obtain ⟨pre, h1, h2, h3⟩ := ih h
      refine ⟨c :: pre, ?_, ?_, ?_⟩
      · simp [h1, Ne.symm hc]
      · simp [h2]
      · simp [← h3]

theorem readString_rest_length (d : Nat) (s : Bytes) (h : (readString d s).2.2 = false) :
    (readString d s).2.1.length < s.length := by
  obtain ⟨pre, -, -, h3⟩ := readString_split d s h
  have := congrArg List.length h3
  simp at this
  omega

theorem index_none_iff (sep : Nat) (s : Bytes) : index sep s = none ↔ sep ∉ s := by
  induction s with
  | nil => simp [index]
  | cons c cs ih =>
    by_cases h : c = sep
    · simp [index, h]
    · simp [index, h, ih, Ne.symm h]

theorem genSplit_length_pos (sep n : Nat) (s : Bytes) : 0 < (genSplit sep n s).length := by
  cases n with
  | zero => simp [genSplit]
  | succ n => simp only [genSplit]; split <;> simp

theorem splitN_three_short_iff (s : Bytes) :
    (splitN s 32 3).length < 2 ↔ 32 ∉ s := by
  rw [← index_none_iff]
  cases s with
  | nil => simp [splitN, genSplit, index]
  | cons c cs =>
    have hmin : min 3 ((c :: cs).length + 1) - 1 = (min 2 (cs.length + 1) - 1) + 1 := by
      simp only [List.length_cons]; omega
    simp only [splitN, hmin, genSplit]
    cases hi : index 32 (c :: cs) with
    | none => simp
    | some m =>
      have := genSplit_length_pos 32 (min 2 (cs.length + 1) - 1) (List.drop (m + 1) (c :: cs))
      simp only [List.length_cons, reduceCtorEq, iff_false, not_lt, OfNat.ofNat_ne_zero,
        if_false]
      omega

/-- The header loop returns with the fuel `parseRawRequest` gives it. -/
theorem readHeaders_isSome (fuel : Nat) (reader : Bytes) (headers : Headers)
    (h : reader.length < fuel) : (readHeaders fuel reader headers).isSome = true := by
  induction fuel generalizing reader headers with
  | zero => omega
  | succ n ih =>
    simp only [readHeaders]
    split
    · rfl
    · rename_i hcont
      have herr : (readString 10 reader).2.2 = false := by
        cases hb : (readString 10 reader).2.2 with
        | false => rfl
        | true => exact absurd (Or.inl hb) hcont
      have hlen := readString_rest_length 10 reader herr
      split
      · rfl
      · split
        · exact ih _ _ (by omega)
        · exact ih _ _ (by omega)

/-! ## The shape of a parse -/

theorem parseRawRequest_noNewline (data : Bytes) (h : 10 ∉ data) :
    parseRawRequest data = .error .readRequestLine := by
  have := (readString_err_iff 10 data).2 h
  simp [parseRawRequest, this]

theorem parseRawRequest_short (data : Bytes) (h : 10 ∈ data)
    (hs : (requestFields data).length < 2) :
    parseRawRequest data = .error .requestLineFormat := by
  have herr : (readString 10 data).2.2 = false := by
    cases hb : (readString 10 data).2.2 with
    | false => rfl
    | true => exact absurd h ((readString_err_iff 10 data).1 hb)
  simp only [requestFields, requestLine] at hs
  simp only [parseRawRequest, herr, Bool.false_eq_true, if_false]
  split
  · rename_i heq
    rw [heq] at hs
    simp at hs
    omega
  · rfl

theorem parseRawRequest_fields (data method path : Bytes) (tail : List Bytes)
    (h : 10 ∈ data) (hf : requestFields data = method :: path :: tail) :
    parseRawRequest data =
      match resolveURL path (parsedHeaders data) with
      | .error e => .error e
      | .ok url => .ok (templateOf data method url) := by
  have herr : (readString 10 data).2.2 = false := by
    cases hb : (readString 10 data).2.2 with
    | false => rfl
    | true => exact absurd h ((readString_err_iff 10 data).1 hb)
  simp only [requestFields, requestLine] at hf
  have hsome := readHeaders_isSome ((readString 10 data).2.1.length + 1)
    (readString 10 data).2.1 [] (Nat.lt_succ_self _)
  obtain ⟨⟨hs, body⟩, hrh⟩ := Option.isSome_iff_exists.1 hsome
  simp only [parseRawRequest, herr, Bool.false_eq_true, if_false, hf, hrh, templateOf,
    parsedHeaders, headerLoop, Option.getD_some]

/-- The model's own error is never returned: the header loop always ends. -/
theorem parseRawRequest_fuel (data : Bytes) : parseRawRequest data ≠ .error .fuel := by
  by_cases h : 10 ∈ data
  · by_cases hs : (requestFields data).length < 2
    · rw [parseRawRequest_short data h hs]; simp
    · match hf : requestFields data, hs with
      | [], hs => simp at hs
      | [_], hs => simp at hs
      | method :: path :: tail, _ =>
        rw [parseRawRequest_fields data method path tail h hf]
        simp only [resolveURL]
        split <;> rename_i heq <;> revert heq <;> split <;> try split
        all_goals first
          | (intro e; cases e; simp)
          | simp
  · rw [parseRawRequest_noNewline data h]; simp

/-! ## White space removal -/

theorem asciiSpace_lt (c : Nat) (h : asciiSpace c = true) : c < 128 := by
  simp only [asciiSpace, Bool.or_eq_true, beq_iff_eq] at h
  omega

theorem spaceCode_forward : SpaceCode space2 space3 := by
  constructor
  · intro a b h
    simp only [space2, Bool.and_eq_true, Bool.or_eq_true, beq_iff_eq] at h
    omega
  · intro a b c h
    simp only [space3, Bool.and_eq_true, Bool.or_eq_true, beq_iff_eq,
      decide_eq_true_eq] at h
    refine ⟨by omega, by omega, by omega, ?_⟩
    simp only [space2, Bool.and_eq_false_iff, Bool.or_eq_false_iff, beq_eq_false_iff_ne]
    omega

theorem spaceCode_backward : SpaceCode space2r space3r := by
  constructor
  · intro a b h
    simp only [space2r, space2, Bool.and_eq_true, Bool.or_eq_true, beq_iff_eq] at h
    omega
  · intro a b c h
    simp only [space3r, space3, Bool.and_eq_true, Bool.or_eq_true, beq_iff_eq,
      decide_eq_true_eq] at h
    refine ⟨by omega, by omega, by omega, ?_⟩
    simp only [space2r, space2, Bool.and_eq_false_iff, Bool.or_eq_false_iff,
      beq_eq_false_iff_ne]
    omega

section strip

variable {p2 : Nat → Nat → Bool} {p3 : Nat → Nat → Nat → Bool}

theorem stripSpace_of_not_lead (s : Bytes) (h : leadSpace p2 p3 s = false) :
    stripSpace p2 p3 s = s := by
  match s, h with
  | [], _ => rfl
  | [b0], h =>
    simp only [leadSpace] at h
    simp [stripSpace, h]
  | [b0, b1], h =>
    simp only [leadSpace, Bool.or_eq_false_iff] at h
    simp [stripSpace, h.1, h.2]
  | b0 :: b1 :: b2 :: t, h =>
    simp only [leadSpace, Bool.or_eq_false_iff] at h
    simp [stripSpace, h.1.1, h.1.2, h.2]

theorem stripSpace_ascii (b0 : Nat) (t0 : Bytes) (h : asciiSpace b0 = true) :
    stripSpace p2 p3 (b0 :: t0) = stripSpace p2 p3 t0 := by
  conv_lhs => unfold stripSpace
  simp only [h, if_true]

theorem stripSpace_two (b0 b1 : Nat) (t1 : Bytes) (h : ¬ asciiSpace b0 = true)
    (h2 : p2 b0 b1 = true) :
    stripSpace p2 p3 (b0 :: b1 :: t1) = stripSpace p2 p3 t1 := by
  conv_lhs => unfold stripSpace
  simp only [h, h2, if_true, if_false, Bool.false_eq_true]

theorem stripSpace_three (b0 b1 b2 : Nat) (t2 : Bytes) (h : ¬ asciiSpace b0 = true)
    (h2 : ¬ p2 b0 b1 = true) (h3 : p3 b0 b1 b2 = true) :
    stripSpace p2 p3 (b0 :: b1 :: b2 :: t2) = stripSpace p2 p3 t2 := by
  conv_lhs => unfold stripSpace
  simp only [h, h2, h3, if_true, if_false, Bool.false_eq_true]

theorem leadSpace_stripSpace (s : Bytes) :
    leadSpace p2 p3 (stripSpace p2 p3 s) = false := by
  induction s using stripSpace.induct p2 p3 with
  | case1 => rfl
  | case2 b0 t0 h ih => rw [stripSpace_ascii b0 t0 h]; exact ih
  | case3 b0 h =>
    have hl : leadSpace p2 p3 [b0] = false := by simpa [leadSpace] using h
    rw [stripSpace_of_not_lead _ hl]; exact hl
  | case4 b0 h b1 t1 h2 ih => rw [stripSpace_two b0 b1 t1 h h2]; exact ih
  | case5 b0 h b1 h2 =>
    have hl : leadSpace p2 p3 [b0, b1] = false := by simp [leadSpace, h, h2]
    rw [stripSpace_of_not_lead _ hl]; exact hl
  | case6 b0 h b1 h2 b2 t2 h3 ih => rw [stripSpace_three b0 b1 b2 t2 h h2 h3]; exact ih
  | case7 b0 h b1 h2 b2 t2 h3 =>
    have hl : leadSpace p2 p3 (b0 :: b1 :: b2 :: t2) = false := by
      simp [leadSpace, h, h2, h3]
    rw [stripSpace_of_not_lead _ hl]; exact hl

theorem stripSpace_idem (s : Bytes) :
    stripSpace p2 p3 (stripSpace p2 p3 s) = stripSpace p2 p3 s :=
  stripSpace_of_not_lead _ (leadSpace_stripSpace s)

theorem leadSpace_of_stripSpace_eq (s : Bytes) (h : stripSpace p2 p3 s = s) :
    leadSpace p2 p3 s = false := by
  rw [← h]; exact leadSpace_stripSpace s

/-- The removal drops a prefix that is all white space. -/
theorem stripSpace_decomp (hc : SpaceCode p2 p3) (s : Bytes) :
    ∃ a, s = a ++ stripSpace p2 p3 s ∧ stripSpace p2 p3 a = [] ∧
      ∀ c ∈ a, asciiSpace c = true ∨ 128 ≤ c := by
  induction s using stripSpace.induct p2 p3 with
  | case1 => exact ⟨[], rfl, rfl, by simp⟩
  | case2 b0 t0 h ih =>
    obtain ⟨a, h1, h2, h3⟩ := ih
    refine ⟨b0 :: a, ?_, ?_, ?_⟩
    · rw [stripSpace_ascii b0 t0 h, List.cons_append, ← h1]
    · rw [stripSpace_ascii b0 a h]; exact h2
    · intro c hcm
      rcases List.mem_cons.1 hcm with rfl | hcm
      · exact Or.inl h
      · exact h3 c hcm
  | case3 b0 h =>
    have hl : leadSpace p2 p3 [b0] = false := by simpa [leadSpace] using h
    exact ⟨[], by rw [stripSpace_of_not_lead _ hl]; rfl, rfl, by simp⟩
  | case4 b0 h b1 t1 h2 ih =>
    obtain ⟨a, h1, h3, h4⟩ := ih
    refine ⟨b0 :: b1 :: a, ?_, ?_, ?_⟩
    · rw [stripSpace_two b0 b1 t1 h h2, List.cons_append, List.cons_append, ← h1]
    · rw [stripSpace_two b0 b1 a h h2]; exact h3
    · intro c hcm
      have := hc.two b0 b1 h2
      rcases List.mem_cons.1 hcm with rfl | hcm
      · exact Or.inr this.1
      rcases List.mem_cons.1 hcm with rfl | hcm
      · exact Or.inr this.2
      · exact h4 c hcm
  | case5 b0 h b1 h2 =>
    have hl : leadSpace p2 p3 [b0, b1] = false := by simp [leadSpace, h, h2]
    exact ⟨[], by rw [stripSpace_of_not_lead _ hl]; rfl, rfl, by simp⟩
  | case6 b0 h b1 h2 b2 t2 h3 ih =>
    obtain ⟨a, h1, h4, h5⟩ := ih
    refine ⟨b0 :: b1 :: b2 :: a, ?_, ?_, ?_⟩
    · rw [stripSpace_three b0 b1 b2 t2 h h2 h3, List.cons_append, List.cons_append,
        List.cons_append, ← h1]
    · rw [stripSpace_three b0 b1 b2 a h h2 h3]; exact h4
    · intro c hcm
      have := hc.three b0 b1 b2 h3
      rcases List.mem_cons.1 hcm with rfl | hcm
      · exact Or.inr this.1
      rcases List.mem_cons.1 hcm with rfl | hcm
      · exact Or.inr this.2.1
      rcases List.mem_cons.1 hcm with rfl | hcm
      · exact Or.inr this.2.2.1
      · exact h5 c hcm
  | case7 b0 h b1 h2 b2 t2 h3 =>
    have hl : leadSpace p2 p3 (b0 :: b1 :: b2 :: t2) = false := by
      simp [leadSpace, h, h2, h3]
    exact ⟨[], by rw [stripSpace_of_not_lead _ hl]; rfl, rfl, by simp⟩

/-- White space in front of a string goes with the white space of the string. -/
theorem stripSpace_blank_append (a x : Bytes) (h : stripSpace p2 p3 a = []) :
    stripSpace p2 p3 (a ++ x) = stripSpace p2 p3 x := by
  induction a using stripSpace.induct p2 p3 with
  | case1 => rfl
  | case2 b0 t0 h0 ih =>
    rw [stripSpace_ascii b0 t0 h0] at h
    rw [List.cons_append, stripSpace_ascii b0 _ h0]; exact ih h
  | case3 b0 h0 =>
    have hl : leadSpace p2 p3 [b0] = false := by simpa [leadSpace] using h0
    rw [stripSpace_of_not_lead _ hl] at h; cases h
  | case4 b0 h0 b1 t1 h2 ih =>
    rw [stripSpace_two b0 b1 t1 h0 h2] at h
    rw [List.cons_append, List.cons_append, stripSpace_two b0 b1 _ h0 h2]; exact ih h
  | case5 b0 h0 b1 h2 =>
    have hl : leadSpace p2 p3 [b0, b1] = false := by simp [leadSpace, h0, h2]
    rw [stripSpace_of_not_lead _ hl] at h; cases h
  | case6 b0 h0 b1 h2 b2 t2 h3 ih =>
    rw [stripSpace_three b0 b1 b2 t2 h0 h2 h3] at h
    rw [List.cons_append, List.cons_append, List.cons_append,
      stripSpace_three b0 b1 b2 _ h0 h2 h3]
    exact ih h
  | case7 b0 h0 b1 h2 b2 t2 h3 =>
    have hl : leadSpace p2 p3 (b0 :: b1 :: b2 :: t2) = false := by
      simp [leadSpace, h0, h2, h3]
    rw [stripSpace_of_not_lead _ hl] at h; cases h

/-- A string that begins with white space still does with bytes after it. -/
theorem leadSpace_append (t x : Bytes) (h : leadSpace p2 p3 t = true) :
    leadSpace p2 p3 (t ++ x) = true := by
  match t, h with
  | [b0], h =>
    simp only [leadSpace] at h
    cases x with
    | nil => simpa [leadSpace] using h
    | cons c x => cases x <;> simp [leadSpace, h]
  | [b0, b1], h =>
    cases x with
    | nil => simpa using h
    | cons c x =>
      simp only [leadSpace] at h
      simp only [List.cons_append, List.nil_append, leadSpace, h, Bool.true_or]
  | b0 :: b1 :: b2 :: t, h => simpa [leadSpace] using h

/-- A string that does not begin with white space still does not with bytes
after it, when the first of them cannot continue an encoding. -/
theorem leadSpace_append_safe (y x : Bytes) (hy : y ≠ []) (h : leadSpace p2 p3 y = false)
    (hx : ∀ f ∈ x.head?, (∀ c, p2 c f = false) ∧ ∀ c d, p3 c f d = false ∧ p3 c d f = false) :
    leadSpace p2 p3 (y ++ x) = false := by
  match y, hy, h with
  | [b0], _, h =>
    simp only [leadSpace] at h
    match x, hx with
    | [], _ => simpa [leadSpace] using h
    | [f], hx =>
      have := hx f (by simp)
      simp [leadSpace, h, this.1]
    | f :: g :: x, hx =>
      have := hx f (by simp)
      simp [leadSpace, h, this.1, (this.2 b0 g).1]
  | [b0, b1], _, h =>
    simp only [leadSpace, Bool.or_eq_false_iff] at h
    match x, hx with
    | [], _ => simp [leadSpace, h.1, h.2]
    | f :: x, hx =>
      have := hx f (by simp)
      simp [leadSpace, h.1, h.2, (this.2 b0 b1).2]
  | b0 :: b1 :: b2 :: t, _, h => simpa [leadSpace] using h

end strip


/-- A byte of ASCII cannot continue an encoding. -/
theorem SpaceCode.safe {p2 : Nat → Nat → Bool} {p3 : Nat → Nat → Nat → Bool}
    (hc : SpaceCode p2 p3) (f : Nat) (h : f < 128) :
    (∀ c, p2 c f = false) ∧ ∀ c d, p3 c f d = false ∧ p3 c d f = false := by
  refine ⟨fun c => ?_, fun c d => ⟨?_, ?_⟩⟩
  · cases hp : p2 c f with
    | false => rfl
    | true => have := hc.two c f hp; omega
  · cases hp : p3 c f d with
    | false => rfl
    | true => have := hc.three c f d hp; omega
  · cases hp : p3 c d f with
    | false => rfl
    | true => have := hc.three c d f hp; omega

/-- A string that begins with an ASCII byte other than white space does not
begin with white space. -/
theorem leadSpace_cons_ascii {p2 : Nat → Nat → Bool} {p3 : Nat → Nat → Nat → Bool}
    (hc : SpaceCode p2 p3) (c : Nat) (x : Bytes) (h : c < 128) (hs : asciiSpace c = false) :
    leadSpace p2 p3 (c :: x) = false := by
  have h2 : ∀ b, p2 c b = false := fun b => by
    cases hp : p2 c b with
    | false => rfl
    | true => have := hc.two c b hp; omega
  have h3 : ∀ b d, p3 c b d = false := fun b d => by
    cases hp : p3 c b d with
    | false => rfl
    | true => have := hc.three c b d hp; omega
  match x with
  | [] => simp [leadSpace, hs]
  | [b] => simp [leadSpace, hs, h2]
  | b :: d :: x => simp [leadSpace, hs, h2, h3]

theorem trimLeft_decomp (s : Bytes) :
    ∃ a, s = a ++ trimLeft s ∧ trimLeft a = [] ∧ ∀ c ∈ a, asciiSpace c = true ∨ 128 ≤ c :=
  stripSpace_decomp spaceCode_forward s

theorem trimRight_decomp (s : Bytes) :
    ∃ b, s = trimRight s ++ b ∧ trimRight b = [] ∧ ∀ c ∈ b, asciiSpace c = true ∨ 128 ≤ c := by
  obtain ⟨a, h1, h2, h3⟩ := stripSpace_decomp spaceCode_backward s.reverse
  refine ⟨a.reverse, ?_, ?_, ?_⟩
  · have := congrArg List.reverse h1
    simpa [trimRight] using this
  · simp [trimRight, h2]
  · intro c hcm
    exact h3 c (List.mem_reverse.1 hcm)

/-- The string is white space, the trimmed string, white space. -/
theorem trimSpace_decomp (s : Bytes) :
    ∃ a b, s = a ++ trimSpace s ++ b ∧ trimLeft a = [] ∧ trimRight b = [] ∧
      (∀ c ∈ a, asciiSpace c = true ∨ 128 ≤ c) ∧ ∀ c ∈ b, asciiSpace c = true ∨ 128 ≤ c := by
  obtain ⟨a, h1, h2, h3⟩ := trimLeft_decomp s
  obtain ⟨b, h4, h5, h6⟩ := trimRight_decomp (trimLeft s)
  refine ⟨a, b, ?_, h2, h5, h3, h6⟩
  rw [List.append_assoc]
  simp only [trimSpace]
  rw [← h4, ← h1]

theorem trimSpace_mem (s : Bytes) (c : Nat) (h : c ∈ trimSpace s) : c ∈ s := by
  obtain ⟨a, b, h1, -⟩ := trimSpace_decomp s
  rw [h1]
  simp [h]

theorem clean_trimSpace (s : Bytes) : Clean (trimSpace s) := by
  constructor
  · obtain ⟨b, h4, -⟩ := trimRight_decomp (trimLeft s)
    have hl : leadSpace space2 space3 (trimLeft s) = false := leadSpace_stripSpace s
    cases hq : leadSpace space2 space3 (trimSpace s) with
    | false => rfl
    | true =>
      have := leadSpace_append (trimSpace s) b hq
      simp only [trimSpace] at this
      rw [← h4, hl] at this
      cases this
  · simp only [trimSpace, trimRight, List.reverse_reverse]
    exact leadSpace_stripSpace _

theorem trimSpace_of_clean (s : Bytes) (h : Clean s) : trimSpace s = s := by
  have h1 : trimLeft s = s := stripSpace_of_not_lead s h.1
  have h2 : trimRight s = s := by
    simp only [trimRight]
    rw [stripSpace_of_not_lead _ h.2, List.reverse_reverse]
  simp only [trimSpace, h1, h2]

theorem trimSpace_idem (s : Bytes) : trimSpace (trimSpace s) = trimSpace s :=
  trimSpace_of_clean _ (clean_trimSpace s)

theorem trimSpace_blank_append (a x : Bytes) (h : trimLeft a = []) :
    trimSpace (a ++ x) = trimSpace x := by
  simp only [trimSpace, trimLeft]
  rw [stripSpace_blank_append a x h]

theorem trimRight_append_blank (y b : Bytes) (h : trimRight b = []) :
    trimRight (y ++ b) = trimRight y := by
  have hb : stripSpace space2r space3r b.reverse = [] := by
    simpa [trimRight] using h
  simp only [trimRight, List.reverse_append]
  rw [stripSpace_blank_append _ _ hb]

/-- White space read from the front is white space read from the end. -/
theorem stripSpace_reverse {p2 q2 : Nat → Nat → Bool} {p3 q3 : Nat → Nat → Nat → Bool}
    (hp : SpaceCode p2 p3) (hq : SpaceCode q2 q3) (h2 : ∀ a b, q2 a b = p2 b a)
    (h3 : ∀ a b c, q3 a b c = p3 c b a) (a : Bytes) (h : stripSpace p2 p3 a = []) :
    stripSpace q2 q3 a.reverse = [] := by
  induction a using stripSpace.induct p2 p3 with
  | case1 => rfl
  | case2 b0 t0 h0 ih =>
    rw [stripSpace_ascii b0 t0 h0] at h
    rw [List.reverse_cons, stripSpace_blank_append _ _ (ih h), stripSpace_ascii b0 [] h0]
    rfl
  | case3 b0 h0 =>
    have hl : leadSpace p2 p3 [b0] = false := by simpa [leadSpace] using h0
    rw [stripSpace_of_not_lead _ hl] at h; cases h
  | case4 b0 h0 b1 t1 h1 ih =>
    rw [stripSpace_two b0 b1 t1 h0 h1] at h
    have hb := hp.two b0 b1 h1
    have hn : ¬ asciiSpace b1 = true := fun e => by have := asciiSpace_lt b1 e; omega
    have e : (b0 :: b1 :: t1).reverse = t1.reverse ++ [b1, b0] := by simp
    rw [e, stripSpace_blank_append _ _ (ih h),
      stripSpace_two b1 b0 [] hn (by rw [h2]; exact h1)]
    rfl
  | case5 b0 h0 b1 h1 =>
    have hl : leadSpace p2 p3 [b0, b1] = false := by simp [leadSpace, h0, h1]
    rw [stripSpace_of_not_lead _ hl] at h; cases h
  | case6 b0 h0 b1 h1 b2 t2 h4 ih =>
    rw [stripSpace_three b0 b1 b2 t2 h0 h1 h4] at h
    have hb := hp.three b0 b1 b2 h4
    have hq3 : q3 b2 b1 b0 = true := by rw [h3]; exact h4
    have hn : ¬ asciiSpace b2 = true := fun e => by have := asciiSpace_lt b2 e; omega
    have hn2 : ¬ q2 b2 b1 = true := by rw [(hq.three b2 b1 b0 hq3).2.2.2]; simp
    have e : (b0 :: b1 :: b2 :: t2).reverse = t2.reverse ++ [b2, b1, b0] := by simp
    rw [e, stripSpace_blank_append _ _ (ih h), stripSpace_three b2 b1 b0 [] hn hn2 hq3]
    rfl
  | case7 b0 h0 b1 h1 b2 t2 h4 =>
    have hl : leadSpace p2 p3 (b0 :: b1 :: b2 :: t2) = false := by
      simp [leadSpace, h0, h1, h4]
    rw [stripSpace_of_not_lead _ hl] at h; cases h

theorem trimLeft_of_trimRight_nil (b : Bytes) (h : trimRight b = []) : trimLeft b = [] := by
  have hb : stripSpace space2r space3r b.reverse = [] := by
    simpa [trimRight] using h
  have := stripSpace_reverse spaceCode_backward spaceCode_forward
    (fun _ _ => rfl) (fun _ _ _ => rfl) b.reverse hb
  simpa [trimLeft] using this

/-- The first byte of an encoding does not continue another one. -/
theorem safe_of_first (f : Nat) (h : f < 128 ∨ 192 ≤ f) :
    (∀ c, space2 c f = false) ∧ ∀ c d, space3 c f d = false ∧ space3 c d f = false := by
  refine ⟨fun c => ?_, fun c d => ⟨?_, ?_⟩⟩
  · cases hp : space2 c f with
    | false => rfl
    | true =>
      simp only [space2, Bool.and_eq_true, Bool.or_eq_true, beq_iff_eq] at hp
      omega
  · cases hp : space3 c f d with
    | false => rfl
    | true =>
      simp only [space3, Bool.and_eq_true, Bool.or_eq_true, beq_iff_eq,
        decide_eq_true_eq] at hp
      omega
  · cases hp : space3 c d f with
    | false => rfl
    | true =>
      simp only [space3, Bool.and_eq_true, Bool.or_eq_true, beq_iff_eq,
        decide_eq_true_eq] at hp
      omega

theorem head_of_blank (b : Bytes) (h : trimLeft b = []) :
    ∀ f ∈ b.head?, f < 128 ∨ 192 ≤ f := by
  intro f hf
  match b, h, hf with
  | c :: t, h, hf =>
    simp only [List.head?_cons, Option.mem_def, Option.some.injEq] at hf
    subst hf
    by_cases h0 : asciiSpace c = true
    · exact Or.inl (asciiSpace_lt c h0)
    · match t, h with
      | [], h =>
        have hl : leadSpace space2 space3 [c] = false := by simpa [leadSpace] using h0
        rw [trimLeft, stripSpace_of_not_lead _ hl] at h; cases h
      | b1 :: t1, h =>
        by_cases h1 : space2 c b1 = true
        · simp only [space2, Bool.and_eq_true, Bool.or_eq_true, beq_iff_eq] at h1
          omega
        · match t1, h with
          | [], h =>
            have hl : leadSpace space2 space3 [c, b1] = false := by simp [leadSpace, h0, h1]
            rw [trimLeft, stripSpace_of_not_lead _ hl] at h; cases h
          | b2 :: t2, h =>
            by_cases h3 : space3 c b1 b2 = true
            · simp only [space3, Bool.and_eq_true, Bool.or_eq_true, beq_iff_eq,
                decide_eq_true_eq] at h3
              omega
            · have hl : leadSpace space2 space3 (c :: b1 :: b2 :: t2) = false := by
                simp [leadSpace, h0, h1, h3]
              rw [trimLeft, stripSpace_of_not_lead _ hl] at h; cases h

theorem trimSpace_append_blank (y b : Bytes) (h : trimRight b = []) :
    trimSpace (y ++ b) = trimSpace y := by
  have hbl := trimLeft_of_trimRight_nil b h
  by_cases hy : trimLeft y = []
  · have e : trimLeft (y ++ b) = [] := by
      rw [trimLeft, stripSpace_blank_append y b hy]; exact hbl
    simp only [trimSpace, e, hy]
  · obtain ⟨a, h1, h2, -⟩ := trimLeft_decomp y
    have hsafe : ∀ f ∈ b.head?, (∀ c, space2 c f = false) ∧
        ∀ c d, space3 c f d = false ∧ space3 c d f = false :=
      fun f hf => safe_of_first f (head_of_blank b hbl f hf)
    have hl := leadSpace_append_safe (trimLeft y) b hy (leadSpace_stripSpace y) hsafe
    have e : trimLeft (y ++ b) = trimLeft y ++ b := by
      conv_lhs => rw [h1, List.append_assoc, trimLeft, stripSpace_blank_append a _ h2]
      exact stripSpace_of_not_lead _ hl
    simp only [trimSpace, e]
    exact trimRight_append_blank _ _ h

theorem index_lt (c : Nat) (s : Bytes) (i : Nat) (h : index c s = some i) : i < s.length := by
  induction s generalizing i with
  | nil => simp [index] at h
  | cons d ds ih =>
    by_cases hd : d = c
    · simp only [index, hd, if_true, Option.some.injEq] at h
      subst h; simp
    · simp only [index, hd, if_false, Option.map_eq_some'] at h
      obtain ⟨j, hj, rfl⟩ := h
      have := ih j hj
      simp only [List.length_cons]; omega

theorem index_take (c : Nat) (s : Bytes) (i : Nat) (h : index c s = some i) :
    c ∉ s.take i ∧ s[i]? = some c := by
  induction s generalizing i with
  | nil => simp [index] at h
  | cons d ds ih =>
    by_cases hd : d = c
    · simp only [index, hd, if_true, Option.some.injEq] at h
      subst h; simp [hd]
    · simp only [index, hd, if_false, Option.map_eq_some'] at h
      obtain ⟨j, hj, rfl⟩ := h
      have := ih j hj
      simp [this, Ne.symm hd]

theorem index_cons_ne (c d : Nat) (s : Bytes) (h : d ≠ c) :
    index c (d :: s) = (index c s).map (· + 1) := by
  simp only [index, h, if_false]

theorem index_append_left (c : Nat) (a x : Bytes) (h : c ∉ a) :
    index c (a ++ x) = (index c x).map (· + a.length) := by
  induction a with
  | nil => simp
  | cons d ds ih =>
    have hd : d ≠ c := fun e => h (by simp [e])
    have hds : c ∉ ds := fun e => h (by simp [e])
    rw [List.cons_append, index_cons_ne c d _ hd, ih hds]
    cases index c x with
    | none => rfl
    | some j => simp only [Option.map_some', Option.some.injEq, List.length_cons]; omega

theorem index_append_right (c : Nat) (x b : Bytes) (i : Nat) (h : index c x = some i) :
    index c (x ++ b) = some i := by
  induction x generalizing i with
  | nil => simp [index] at h
  | cons d ds ih =>
    by_cases hd : d = c
    · simp only [index, hd, if_true, Option.some.injEq] at h
      simp [index, hd, h]
    · simp only [index, hd, if_false, Option.map_eq_some'] at h
      obtain ⟨j, hj, rfl⟩ := h
      simp [index, hd, ih j hj]

theorem not_mem_blank (c : Nat) (a : Bytes) (hc : c < 128) (hs : asciiSpace c = false)
    (ha : ∀ d ∈ a, asciiSpace d = true ∨ 128 ≤ d) : c ∉ a := by
  intro hm
  rcases ha c hm with h | h
  · rw [hs] at h; cases h
  · omega

/-- The entry of a line is the entry of the trimmed line: the parser trims the
line before it looks for the colon. -/
theorem headerEntry_trimSpace (l : Bytes) : headerEntry (trimSpace l) = headerEntry l := by
  obtain ⟨a, b, h1, h2, h3, h4, h5⟩ := trimSpace_decomp l
  have ha : 58 ∉ a := not_mem_blank 58 a (by omega) (by decide) h4
  have hb : 58 ∉ b := not_mem_blank 58 b (by omega) (by decide) h5
  cases hi : index 58 (trimSpace l) with
  | none =>
    have hn : 58 ∉ l := by
      rw [h1]
      simp only [List.mem_append, not_or]
      exact ⟨⟨ha, (index_none_iff 58 _).1 hi⟩, hb⟩
    simp only [headerEntry, hi, (index_none_iff 58 l).2 hn]
  | some i =>
    have hlt := index_lt 58 _ i hi
    have hl : index 58 l = some (i + a.length) := by
      conv_lhs => rw [h1, List.append_assoc, index_append_left 58 a _ ha,
        index_append_right 58 _ b i hi]
      rfl
    have e1 : l.take (i + a.length) = a ++ (trimSpace l).take i := by
      conv_lhs => rw [h1, List.append_assoc, Nat.add_comm, List.take_append,
        List.take_append_of_le_length (Nat.le_of_lt hlt)]
    have e2 : l.drop (i + a.length + 1) = (trimSpace l).drop (i + 1) ++ b := by
      have e3 : i + a.length + 1 = a.length + (i + 1) := by omega
      conv_lhs => rw [h1, List.append_assoc, e3, List.drop_append,
        List.drop_append_of_le_length (by omega)]
    simp only [headerEntry, hi, hl, e1, e2, trimSpace_blank_append a _ h2,
      trimSpace_append_blank _ b h3]

/-! ## The URL of a template (C1 to C4) and the errors (C10) -/

/-- C1: when the first line ends with a newline and has a method and a path
field, the path does not begin with `http` and the header map holds `Host` with
value `h`, the parse succeeds and the URL is `https://` ++ h ++ path, unless the
path begins with `http://`, where it is `http://` ++ h ++ path. -/
theorem C1_relative_path_url (data method path h : Bytes) (tail : List Bytes)
    (hnl : 10 ∈ data) (hf : requestFields data = method :: path :: tail)
    (hrel : hasPrefix path (lit "http") = false)
    (hhost : (parsedHeaders data).get (lit "Host") = some h) :
    ∃ t, parseRawRequest data = .ok t ∧
      (hasPrefix path (lit "http://") = false → t.URL = lit "https://" ++ h ++ path) ∧
      (hasPrefix path (lit "http://") = true → t.URL = lit "http://" ++ h ++ path) := by
  rw [parseRawRequest_fields data method path tail hnl hf]
  simp only [resolveURL, hrel, hhost, Bool.not_false, if_true]
  refine ⟨_, rfl, ?_, ?_⟩
  · intro h1
    simp only [templateOf, h1, Bool.false_eq_true, if_false]
    have : lit "https" ++ lit "://" = lit "https://" := by decide
    rw [← this]
  · intro h1
    simp only [templateOf, h1, if_true]
    have : lit "http" ++ lit "://" = lit "http://" := by decide
    rw [← this]

/-- Scenario A of the specification, as an instance of C1. -/
theorem C1_relative_path_url_witness :
    ∃ t, parseRawRequest (lit "GET /foo HTTP/1.1\r\nHost: example.com\r\n\r\n") = .ok t ∧
      (hasPrefix (lit "/foo") (lit "http://") = false →
        t.URL = lit "https://" ++ lit "example.com" ++ lit "/foo") ∧
      (hasPrefix (lit "/foo") (lit "http://") = true →
        t.URL = lit "http://" ++ lit "example.com" ++ lit "/foo") :=
  C1_relative_path_url (lit "GET /foo HTTP/1.1\r\nHost: example.com\r\n\r\n")
    (lit "GET") (lit "/foo") (lit "example.com") [lit "HTTP/1.1"]
    (by decide) (by decide) (by decide) (by decide)

/-- C2: when the first line ends with a newline and its path field begins with
`http://` or `https://`, the parse succeeds, with or without a `Host` header,
and the URL is the path field verbatim. -/
theorem C2_absolute_path_url (data method path : Bytes) (tail : List Bytes)
    (hnl : 10 ∈ data) (hf : requestFields data = method :: path :: tail)
    (habs : hasPrefix path (lit "http://") = true ∨ hasPrefix path (lit "https://") = true) :
    ∃ t, parseRawRequest data = .ok t ∧ t.URL = path := by
  have hp : hasPrefix path (lit "http") = true := by
    rcases habs with h1 | h1
    · obtain ⟨r, rfl⟩ := List.isPrefixOf_iff_prefix.1 h1
      rfl
    · obtain ⟨r, rfl⟩ := List.isPrefixOf_iff_prefix.1 h1
      rfl
  rw [parseRawRequest_fields data method path tail hnl hf]
  simp only [resolveURL, hp, Bool.not_true, Bool.false_eq_true, if_false]
  exact ⟨_, rfl, rfl⟩

/-- Scenario B of the specification, as an instance of C2. -/
theorem C2_absolute_path_url_witness :
    ∃ t, parseRawRequest (lit "POST http://x.com/a\r\nHost: x.com\r\n\r\nbody") = .ok t ∧
      t.URL = lit "http://x.com/a" :=
  C2_absolute_path_url (lit "POST http://x.com/a\r\nHost: x.com\r\n\r\nbody")
    (lit "POST") (lit "http://x.com/a") [] (by decide) (by decide) (Or.inl (by decide))

/-- C3: when the request line is read and has at least two fields, the path
does not begin with `http` and the header map has no key `Host`, the parse fails
with the missing-Host error. -/
theorem C3_missing_host (data method path : Bytes) (tail : List Bytes)
    (hnl : 10 ∈ data) (hf : requestFields data = method :: path :: tail)
    (hrel : hasPrefix path (lit "http") = false)
    (hhost : (parsedHeaders data).get (lit "Host") = none) :
    parseRawRequest data = .error .missingHost := by
  rw [parseRawRequest_fields data method path tail hnl hf]
  simp only [resolveURL, hrel, hhost, Bool.not_false, if_true]

/-- A request with a lower-case `host` header only: the keys are case-sensitive. -/
theorem C3_missing_host_witness :
    parseRawRequest (lit "GET /foo HTTP/1.1\nhost: example.com\n\n") = .error .missingHost :=
  C3_missing_host (lit "GET /foo HTTP/1.1\nhost: example.com\n\n")
    (lit "GET") (lit "/foo") [lit "HTTP/1.1"] (by decide) (by decide) (by decide) (by decide)

/-- C4, refuted as stated: the path `httpfoo` passes the prefix test of the
parser and becomes the URL, which begins with neither `http://` nor `https://`. -/
theorem C4_url_not_absolute :
    ∃ t, parseRawRequest (lit "GET httpfoo\n") = .ok t ∧ t.URL = lit "httpfoo" ∧
      hasPrefix t.URL (lit "http://") = false ∧ hasPrefix t.URL (lit "https://") = false :=
  ⟨_, rfl, by decide, by decide, by decide⟩

/-- C4, amended: the URL of a successful parse begins with `http`; it is either
the path field verbatim, that field beginning with `http`, or `https://`
followed by the value of `Host` and the path field. -/
theorem C4_url_begins_with_http (data : Bytes) (t : RequestTemplate)
    (hok : parseRawRequest data = .ok t) :
    hasPrefix t.URL (lit "http") = true ∧
      ∃ method path tail, requestFields data = method :: path :: tail ∧
        ((hasPrefix path (lit "http") = true ∧ t.URL = path) ∨
         (hasPrefix path (lit "http") = false ∧
           ∃ h, (parsedHeaders data).get (lit "Host") = some h ∧
             t.URL = lit "https://" ++ h ++ path)) := by
  by_cases hnl : 10 ∈ data
  swap
  · rw [parseRawRequest_noNewline data hnl] at hok; cases hok
  by_cases hs : (requestFields data).length < 2
  · rw [parseRawRequest_short data hnl hs] at hok; cases hok
  match hf : requestFields data, hs with
  | [], hs => simp at hs
  | [_], hs => simp at hs
  | method :: path :: tail, _ =>
    rw [parseRawRequest_fields data method path tail hnl hf] at hok
    cases hp : hasPrefix path (lit "http") with
    | true =>
      simp only [resolveURL, hp, Bool.not_true, Bool.false_eq_true, if_false] at hok
      cases hok
      exact ⟨hp, method, path, tail, rfl, Or.inl ⟨hp, rfl⟩⟩
    | false =>
      cases hh : (parsedHeaders data).get (lit "Host") with
      | none =>
        simp only [resolveURL, hp, hh, Bool.not_false, if_true] at hok
        cases hok
      | some h =>
        have h1 : hasPrefix path (lit "http://") = false := by
          cases h1 : hasPrefix path (lit "http://") with
          | false => rfl
          | true =>
            obtain ⟨r, rfl⟩ := List.isPrefixOf_iff_prefix.1 h1
            have h2 : hasPrefix (lit "http://" ++ r) (lit "http") = true := rfl
            rw [h2] at hp
            cases hp
        simp only [resolveURL, hp, hh, h1, Bool.not_false, if_true, Bool.false_eq_true,
          if_false] at hok
        cases hok
        have e : lit "https" ++ lit "://" = lit "https://" := by decide
        refine ⟨?_, method, path, tail, rfl, Or.inr ⟨hp, h, rfl, ?_⟩⟩
        · simp only [templateOf]
          rfl
        · simp only [templateOf, ← e]

/-- Scenario A again: the URL `https://example.com/foo` begins with `http`. -/
theorem C4_url_begins_with_http_witness :
    hasPrefix (lit "https://example.com/foo") (lit "http") = true ∧
      ∃ method path tail,
        requestFields (lit "GET /foo HTTP/1.1\r\nHost: example.com\r\n\r\n") =
          method :: path :: tail ∧
        ((hasPrefix path (lit "http") = true ∧ lit "https://example.com/foo" = path) ∨
         (hasPrefix path (lit "http") = false ∧
           ∃ h, (parsedHeaders (lit "GET /foo HTTP/1.1\r\nHost: example.com\r\n\r\n")).get
               (lit "Host") = some h ∧
             lit "https://example.com/foo" = lit "https://" ++ h ++ path)) :=
  C4_url_begins_with_http (lit "GET /foo HTTP/1.1\r\nHost: example.com\r\n\r\n")
    { Name := [], Method := lit "GET", URL := lit "https://example.com/foo",
      Headers := [(lit "Host", lit "example.com")], Body := [] } rfl

/-- C10: the parse returns an error exactly when the input has no newline, or
the trimmed first line has no space, or the second field does not begin with
`http` and the header map has no key `Host`; every other input gives a
template. -/
theorem C10_error_iff (data : Bytes) :
    ((∃ e, parseRawRequest data = .error e) ↔
      (10 ∉ data ∨ 32 ∉ requestLine data ∨
        ∃ path, (requestFields data)[1]? = some path ∧
          hasPrefix path (lit "http") = false ∧
          (parsedHeaders data).get (lit "Host") = none)) ∧
    ((∃ t, parseRawRequest data = .ok t) ↔
      ¬ (10 ∉ data ∨ 32 ∉ requestLine data ∨
        ∃ path, (requestFields data)[1]? = some path ∧
          hasPrefix path (lit "http") = false ∧
          (parsedHeaders data).get (lit "Host") = none)) := by
  have key : (∃ e, parseRawRequest data = .error e) ↔
      (10 ∉ data ∨ 32 ∉ requestLine data ∨
        ∃ path, (requestFields data)[1]? = some path ∧
          hasPrefix path (lit "http") = false ∧
          (parsedHeaders data).get (lit "Host") = none) := by
    by_cases hnl : 10 ∈ data
    swap
    · simp [parseRawRequest_noNewline data hnl, hnl]
    by_cases hs : (requestFields data).length < 2
    · have h32 : 32 ∉ requestLine data := (splitN_three_short_iff _).1 hs
      simp [parseRawRequest_short data hnl hs, h32]
    have h32 : ¬ (32 ∉ requestLine data) := fun h => hs ((splitN_three_short_iff _).2 h)
    match hf : requestFields data, hs with
    | [], hs => simp at hs
    | [_], hs => simp at hs
    | method :: path :: tail, _ =>
      rw [parseRawRequest_fields data method path tail hnl hf]
      simp only [hnl, not_true_eq_false, h32, false_or, List.getElem?_cons_succ,
        List.getElem?_cons_zero, Option.some.injEq, exists_eq_left']
      cases hp : hasPrefix path (lit "http") with
      | true => simp [resolveURL, hp]
      | false =>
        cases hh : (parsedHeaders data).get (lit "Host") with
        | none => simp [resolveURL, hp, hh]
        | some h => simp [resolveURL, hp, hh]
  refine ⟨key, ?_⟩
  rw [← key]
  cases hp : parseRawRequest data with
  | error e => simp
  | ok t => simp
/-! ## The concurrency budget (C9) -/

theorem step_inv (k : Nat) (s s1 : Dispatch) (e : Event) (h : s.Inv k)
    (hs : step k s e = some s1) : s1.Inv k := by
  obtain ⟨h1, h2⟩ := h
  cases e <;> simp only [step] at hs <;> split at hs <;> cases hs <;> rename_i hc
  · simp only [Dispatch.Inv, Dispatch.inFlight, hc.1, reduceCtorEq, if_false, if_true] at h1 ⊢
    omega
  · simp only [Dispatch.Inv, Dispatch.inFlight, hc, reduceCtorEq, if_false, if_true] at h1 ⊢
    omega
  · simp only [Dispatch.Inv, Dispatch.inFlight] at h1 ⊢
    omega
  · simp only [Dispatch.Inv, Dispatch.inFlight] at h1 ⊢
    omega

theorem run_inv (k : Nat) (es : List Event) (s s1 : Dispatch) (h : s.Inv k)
    (hr : run k s es = some s1) : s1.Inv k := by
  induction es generalizing s with
  | nil => simp only [run, Option.some.injEq] at hr; exact hr ▸ h
  | cons e es ih =>
    simp only [run] at hr
    split at hr
    · cases hr
    · rename_i s2 hstep
      exact ih s2 (step_inv k s s2 e h hstep) hr

/-- C9: in every state the semaphore protocol reaches with a channel of
capacity `k`, at most `k` sends are in flight. -/
theorem C9_in_flight_bounded (k : Nat) (es : List Event) (s : Dispatch)
    (hr : run k Dispatch.init es = some s) : s.inFlight ≤ k := by
  have hinit : Dispatch.init.Inv k := by
    simp [Dispatch.Inv, Dispatch.inFlight, Dispatch.init]
  obtain ⟨h1, h2⟩ := run_inv k es Dispatch.init s hinit hr
  omega

/-- With two threads: two sends started, one of them returned, none released. -/
theorem C9_in_flight_bounded_witness :
    run 2 Dispatch.init [.acquire, .spawn, .acquire, .spawn, .finish] =
        some { sem := 2, coord := .idle, sending := 1, releasing := 1 } ∧
      Dispatch.inFlight { sem := 2, coord := .idle, sending := 1, releasing := 1 } ≤ 2 :=
  ⟨rfl, C9_in_flight_bounded 2 [.acquire, .spawn, .acquire, .spawn, .finish] _ rfl⟩

/-! ## The body (C5) -/

theorem isLine_iff (l : Bytes) : isLine l = true ↔ ∃ pre, l = pre ++ [10] ∧ 10 ∉ pre := by
  constructor
  · intro h
    simp only [isLine, decide_eq_true_eq] at h
    have e : l.dropLast ++ [10] = l := List.dropLast_append_getLast? 10 (by rw [h.1]; rfl)
    exact ⟨l.dropLast, e.symm, h.2⟩
  · rintro ⟨pre, rfl, h⟩
    simp [isLine, h]

theorem readString_line (l rest : Bytes) (h : isLine l = true) :
    readString 10 (l ++ rest) = (l, rest, false) := by
  obtain ⟨pre, rfl, hp⟩ := (isLine_iff l).1 h
  simpa using readString_append 10 pre rest hp

/-- The header loop reads the header lines and the blank line, and leaves the
bytes after the blank line unread. -/
theorem readHeaders_body (hdrs : List Bytes) (blank B : Bytes)
    (hh : ∀ l ∈ hdrs, isLine l = true ∧ trimSpace l ≠ [])
    (hb : blank = [10] ∨ blank = [13, 10]) (fuel : Nat) (headers : Headers)
    (hfuel : (hdrs.flatten ++ (blank ++ B)).length < fuel) :
    ∃ hs, readHeaders fuel (hdrs.flatten ++ (blank ++ B)) headers = some (hs, B) := by
  induction hdrs generalizing fuel headers with
  | nil =>
    cases fuel with
    | zero => omega
    | succ n =>
      have hbl : isLine blank = true := by rcases hb with rfl | rfl <;> decide
      simp only [List.flatten_nil, List.nil_append, readHeaders, readString_line blank B hbl]
      rcases hb with rfl | rfl <;> exact ⟨headers, by simp⟩
  | cons l ls ih =>
    cases fuel with
    | zero => omega
    | succ n =>
      obtain ⟨hl, hne⟩ := hh l (by simp)
      have hls : ∀ x ∈ ls, isLine x = true ∧ trimSpace x ≠ [] :=
        fun x hx => hh x (by simp [hx])
      have h1 : l ≠ [13, 10] := by rintro rfl; exact hne (by decide)
      have h2 : l ≠ [10] := by rintro rfl; exact hne (by decide)
      have hlen : (ls.flatten ++ (blank ++ B)).length < n := by
        have hpos : 0 < l.length := by
          cases l with
          | nil => simp [isLine] at hl
          | cons c cs => simp
        simp only [List.flatten_cons, List.append_assoc, List.length_append] at hfuel ⊢
        omega
      simp only [List.flatten_cons, List.append_assoc, readHeaders,
        readString_line l _ hl, Bool.false_eq_true, h1, h2, or_self, if_false, hne]
      split
      · exact ih hls n _ hlen
      · exact ih hls n _ hlen

/-- C5: for an input made of a request line, header lines that each end with
a newline and hold a byte that is not white space, a blank line `\n` or `\r\n`
and then bytes `B`, the body of a successful parse is `B`, byte for byte. -/
theorem C5_body_verbatim (reqLine : Bytes) (hdrs : List Bytes) (blank B : Bytes)
    (t : RequestTemplate) (hreq : isLine reqLine = true)
    (hh : ∀ l ∈ hdrs, isLine l = true ∧ trimSpace l ≠ [])
    (hb : blank = [10] ∨ blank = [13, 10])
    (hok : parseRawRequest (reqLine ++ hdrs.flatten ++ blank ++ B) = .ok t) :
    t.Body = B := by
  have hdata : reqLine ++ hdrs.flatten ++ blank ++ B =
      reqLine ++ (hdrs.flatten ++ (blank ++ B)) := by simp
  rw [hdata] at hok
  have hrs := readString_line reqLine (hdrs.flatten ++ (blank ++ B)) hreq
  obtain ⟨hs, hrh⟩ := readHeaders_body hdrs blank B hh hb
    ((hdrs.flatten ++ (blank ++ B)).length + 1) [] (Nat.lt_succ_self _)
  simp only [parseRawRequest, hrs, Bool.false_eq_true, if_false, hrh] at hok
  split at hok
  · split at hok
    · cases hok
    · cases hok; rfl
  · cases hok

/-- Scenario B with a body that holds a blank line and disagrees with the
`Content-Length` header. -/
theorem C5_body_verbatim_witness :
    ∃ t, parseRawRequest (lit "POST http://x.com/a\r\n" ++
        [lit "Host: x.com\r\n", lit "Content-Length: 3\n"].flatten ++ lit "\r\n" ++
        lit "bo\r\n\r\ndy\n") = .ok t ∧ t.Body = lit "bo\r\n\r\ndy\n" :=
  ⟨_, rfl, C5_body_verbatim (lit "POST http://x.com/a\r\n")
    [lit "Host: x.com\r\n", lit "Content-Length: 3\n"] (lit "\r\n") (lit "bo\r\n\r\ndy\n") _
    (by decide) (by decide) (Or.inr (by decide)) rfl⟩

/-! ## The header map (C6) -/

theorem terminatedLines_readString (r : Bytes) (h : (readString 10 r).2.2 = false) :
    terminatedLines r = (readString 10 r).1 :: terminatedLines (readString 10 r).2.1 := by
  induction r with
  | nil => simp [readString] at h
  | cons c cs ih =>
    by_cases hc : c = 10
    · simp [terminatedLines, readString, hc]
    · simp only [readString, hc, if_false] at h ⊢
      simp only [terminatedLines, hc, if_false, ih h]

theorem terminatedLines_of_err (r : Bytes) (h : (readString 10 r).2.2 = true) :
    terminatedLines r = [] := by
  induction r with
  | nil => rfl
  | cons c cs ih =>
    by_cases hc : c = 10
    · simp [readString, hc] at h
    · simp only [readString, hc, if_false] at h
      simp only [terminatedLines, hc, if_false, ih h]

theorem Headers.get_set (m : Headers) (k v key : Bytes) :
    (m.set k v).get key = if k = key then some v else m.get key := by
  induction m with
  | nil => simp [Headers.set, Headers.get]
  | cons e m ih =>
    obtain ⟨k0, v0⟩ := e
    by_cases h0 : k0 = k
    · subst h0
      by_cases h1 : k0 = key <;> simp [Headers.set, Headers.get, h1]
    · by_cases h1 : k0 = key
      · subst h1
        simp [Headers.set, Headers.get, h0, Ne.symm h0]
      · simp [Headers.set, Headers.get, h0, h1, ih]

theorem insertAll_get (es : List (Bytes × Bytes)) (m : Headers) (key : Bytes) :
    (insertAll es m).get key = (lastValue es key).orElse (fun _ => m.get key) := by
  induction es generalizing m with
  | nil => simp [insertAll, lastValue]
  | cons e es ih =>
    have e1 : insertAll (e :: es) m = insertAll es (m.set e.1 e.2) := rfl
    rw [e1, ih, Headers.get_set]
    simp only [lastValue, List.reverse_cons, List.find?_append]
    cases List.find? (fun e => decide (e.1 = key)) es.reverse with
    | some x => simp
    | none =>
      by_cases h : e.1 = key <;> simp [h]

/-- The header loop builds the map of the specification from the lines of the
reader. -/
theorem readHeaders_spec (fuel : Nat) (reader : Bytes) (headers : Headers)
    (h : reader.length < fuel) :
    ∃ body, readHeaders fuel reader headers =
      some (insertAll ((untilBlank (terminatedLines reader)).filterMap headerEntry) headers,
        body) := by
  induction fuel generalizing reader headers with
  | zero => omega
  | succ n ih =>
    simp only [readHeaders]
    cases herr : (readString 10 reader).2.2 with
    | true =>
      simp only [true_or, if_true, terminatedLines_of_err reader herr]
      exact ⟨_, rfl⟩
    | false =>
      have hlen := readString_rest_length 10 reader herr
      rw [terminatedLines_readString reader herr]
      by_cases hnb : trimSpace (readString 10 reader).1 = []
      · have e : untilBlank ((readString 10 reader).1 ::
            terminatedLines (readString 10 reader).2.1) = [] := by
          simp [untilBlank, hnb]
        rw [e]
        split
        · exact ⟨_, rfl⟩
        · exact ⟨_, rfl⟩
      · have h1 : (readString 10 reader).1 ≠ [13, 10] := by
          intro e; rw [e] at hnb; exact hnb (by decide)
        have h2 : (readString 10 reader).1 ≠ [10] := by
          intro e; rw [e] at hnb; exact hnb (by decide)
        have e : untilBlank ((readString 10 reader).1 ::
            terminatedLines (readString 10 reader).2.1) =
            (readString 10 reader).1 ::
              untilBlank (terminatedLines (readString 10 reader).2.1) := by
          simp [untilBlank, hnb]
        simp only [Bool.false_eq_true, h1, h2, or_self, if_false, hnb, e,
          List.filterMap_cons]
        rw [← headerEntry_trimSpace]
        simp only [headerEntry]
        split
        · exact ih _ _ (by omega)
        · exact ih _ _ (by omega)

/-- C6: the header map of a successful parse is the map obtained by processing,
in order, the newline-terminated lines after the request line up to the first
line that is empty once trimmed, a line without a colon being skipped and a line
with a colon giving the trimmed text before its first colon as key and the
trimmed text after it as value; the map holds, for a key, the value of the last
line with that key. -/
theorem C6_headers_as_specified (data : Bytes) (t : RequestTemplate)
    (hok : parseRawRequest data = .ok t) :
    t.Headers = specHeaders data ∧
      ∀ key, t.Headers.get key = lastValue (headerEntries data) key := by
  have hnl : 10 ∈ data := by
    by_contra hnl
    rw [parseRawRequest_noNewline data hnl] at hok; cases hok
  have herr : (readString 10 data).2.2 = false := by
    cases hb : (readString 10 data).2.2 with
    | false => rfl
    | true => exact absurd hnl ((readString_err_iff 10 data).1 hb)
  obtain ⟨body, hrh⟩ := readHeaders_spec ((readString 10 data).2.1.length + 1)
    (readString 10 data).2.1 [] (Nat.lt_succ_self _)
  have hH : t.Headers = specHeaders data := by
    simp only [parseRawRequest, herr, Bool.false_eq_true, if_false, hrh] at hok
    split at hok
    · split at hok
      · cases hok
      · cases hok
        simp only [specHeaders, headerEntries, terminatedLines_readString data herr,
          List.tail_cons]
    · cases hok
  refine ⟨hH, fun key => ?_⟩
  rw [hH, specHeaders, insertAll_get]
  cases lastValue (headerEntries data) key <;> rfl

/-- A request with a line without a colon, a repeated key and a line after the
blank line: the map holds the last value of `A`. -/
theorem C6_headers_as_specified_witness :
    ∃ t, parseRawRequest (lit "GET http://x.com/ HTTP/1.1\nA: 1\nno colon\n A : 2 \r\n\nB: 3\n") =
        .ok t ∧
      t.Headers = [(lit "A", lit "2")] ∧
      t.Headers = specHeaders (lit "GET http://x.com/ HTTP/1.1\nA: 1\nno colon\n A : 2 \r\n\nB: 3\n") ∧
      ∀ key, t.Headers.get key =
        lastValue (headerEntries
          (lit "GET http://x.com/ HTTP/1.1\nA: 1\nno colon\n A : 2 \r\n\nB: 3\n")) key :=
  ⟨_, rfl, rfl, C6_headers_as_specified
    (lit "GET http://x.com/ HTTP/1.1\nA: 1\nno colon\n A : 2 \r\n\nB: 3\n") _ rfl⟩

/-! ## Header lines without a blank line (C7) -/

/-- A colon of a line is still there once the line is trimmed. -/
theorem colon_mem_trimSpace (l : Bytes) (h : 58 ∈ l) : 58 ∈ trimSpace l := by
  obtain ⟨a, b, h1, -, -, h4, h5⟩ := trimSpace_decomp l
  have ha : 58 ∉ a := not_mem_blank 58 a (by omega) (by decide) h4
  have hb : 58 ∉ b := not_mem_blank 58 b (by omega) (by decide) h5
  rw [h1] at h
  simp only [List.mem_append] at h
  rcases h with (h | h) | h
  · exact absurd h ha
  · exact h
  · exact absurd h hb

/-- The header loop on lines that are not blank, followed by bytes at which the
loop ends: the entries of the lines go into the map, in order. -/
theorem readHeaders_lines (hdrs : List Bytes) (rest B : Bytes)
    (hrest : ∀ n headers, readHeaders (n + 1) rest headers = some (headers, B))
    (hh : ∀ l ∈ hdrs, isLine l = true ∧ trimSpace l ≠ []) (fuel : Nat) (headers : Headers)
    (hfuel : (hdrs.flatten ++ rest).length < fuel) :
    readHeaders fuel (hdrs.flatten ++ rest) headers =
      some (insertAll (hdrs.filterMap headerEntry) headers, B) := by
  induction hdrs generalizing fuel headers with
  | nil =>
    cases fuel with
    | zero => omega
    | succ n => simpa [insertAll] using hrest n headers
  | cons l ls ih =>
    cases fuel with
    | zero => omega
    | succ n =>
      obtain ⟨hl, hne⟩ := hh l (by simp)
      have hls : ∀ x ∈ ls, isLine x = true ∧ trimSpace x ≠ [] :=
        fun x hx => hh x (by simp [hx])
      have h1 : l ≠ [13, 10] := by rintro rfl; exact hne (by decide)
      have h2 : l ≠ [10] := by rintro rfl; exact hne (by decide)
      have hlen : (ls.flatten ++ rest).length < n := by
        have hpos : 0 < l.length := by
          cases l with
          | nil => simp [isLine] at hl
          | cons c cs => simp
        simp only [List.flatten_cons, List.append_assoc, List.length_append] at hfuel ⊢
        omega
      simp only [List.flatten_cons, List.append_assoc, readHeaders,
        readString_line l _ hl, Bool.false_eq_true, h1, h2, or_self, if_false, hne,
        List.filterMap_cons]
      rw [← headerEntry_trimSpace l]
      simp only [headerEntry]
      split
      · exact ih hls n _ hlen
      · exact ih hls n _ hlen

theorem lastValue_isSome (es : List (Bytes × Bytes)) (e : Bytes × Bytes) (h : e ∈ es) :
    ∃ v, lastValue es e.1 = some v := by
  have hm : e ∈ es.reverse := List.mem_reverse.2 h
  cases hf : List.find? (fun x => decide (x.1 = e.1)) es.reverse with
  | some x => exact ⟨x.2, by simp [lastValue, hf]⟩
  | none =>
    have := List.find?_eq_none.1 hf e hm
    simp at this

/-- C7, refuted as stated: a request line without its newline and no header
line is an error. -/
theorem C7_unterminated_request_line :
    parseRawRequest (lit "GET http://x.com/a HTTP/1.1") = .error .readRequestLine := rfl

/-- The last line of an input, when it does not end with a newline, is read
with the end-of-input error and left out of the map; the body is empty. -/
theorem parseRawRequest_unterminated_header :
    parseRawRequest (lit "GET http://x.com/a HTTP/1.1\nA: b") =
      .ok { Name := [], Method := lit "GET", URL := lit "http://x.com/a",
            Headers := [], Body := [] } := rfl

/-- C7, amended: for a request line with an absolute URL followed by header
lines that each end with a newline and hold a colon, and nothing after them, the
parse succeeds, the body is empty, every header line has an entry whose key is
in the map, and the map holds for a key the value of the last line with it. -/
theorem C7_headers_without_blank_line (reqLine method path : Bytes) (tail : List Bytes)
    (hdrs : List Bytes) (hreq : isLine reqLine = true)
    (hf : splitN (trimSpace reqLine) 32 3 = method :: path :: tail)
    (habs : hasPrefix path (lit "http://") = true ∨ hasPrefix path (lit "https://") = true)
    (hh : ∀ l ∈ hdrs, isLine l = true ∧ 58 ∈ l) :
    ∃ t, parseRawRequest (reqLine ++ hdrs.flatten) = .ok t ∧ t.Body = [] ∧
      (∀ key, t.Headers.get key = lastValue (hdrs.filterMap headerEntry) key) ∧
      ∀ l ∈ hdrs, ∃ e v, headerEntry l = some e ∧ t.Headers.get e.1 = some v := by
  have hp : hasPrefix path (lit "http") = true := by
    rcases habs with h1 | h1
    · obtain ⟨r, rfl⟩ := List.isPrefixOf_iff_prefix.1 h1
      rfl
    · obtain ⟨r, rfl⟩ := List.isPrefixOf_iff_prefix.1 h1
      rfl
  have hne : ∀ l ∈ hdrs, isLine l = true ∧ trimSpace l ≠ [] := fun l hl =>
    ⟨(hh l hl).1, fun e => by have := colon_mem_trimSpace l (hh l hl).2; rw [e] at this; cases this⟩
  have hrs := readString_line reqLine hdrs.flatten hreq
  have hrh := readHeaders_lines hdrs [] [] (fun n headers => by simp [readHeaders, readString])
    hne ((hdrs.flatten ++ []).length + 1) [] (Nat.lt_succ_self _)
  rw [List.append_nil] at hrh
  have hget : ∀ key, (insertAll (hdrs.filterMap headerEntry) []).get key =
      lastValue (hdrs.filterMap headerEntry) key := fun key => by
    rw [insertAll_get]
    cases lastValue (hdrs.filterMap headerEntry) key <;> rfl
  refine ⟨{ Name := [], Method := method, URL := path,
            Headers := insertAll (hdrs.filterMap headerEntry) [], Body := [] }, ?_, rfl, hget, ?_⟩
  · simp only [parseRawRequest, hrs, Bool.false_eq_true, if_false, hf, hrh, resolveURL, hp,
      Bool.not_true]
  · intro l hl
    have hi : index 58 l ≠ none := fun e => (index_none_iff 58 l).1 e (hh l hl).2
    obtain ⟨i, hi⟩ := Option.ne_none_iff_exists'.1 hi
    have he : headerEntry l = some (trimSpace (l.take i), trimSpace (l.drop (i + 1))) := by
      simp only [headerEntry, hi]
    have hm : (trimSpace (l.take i), trimSpace (l.drop (i + 1))) ∈
        hdrs.filterMap headerEntry := List.mem_filterMap.2 ⟨l, hl, he⟩
    obtain ⟨v, hv⟩ := lastValue_isSome _ _ hm
    exact ⟨_, v, he, by rw [hget]; exact hv⟩

/-- Three header lines, two of them with the same name, no blank line. -/
theorem C7_headers_without_blank_line_witness :
    ∃ t, parseRawRequest (lit "GET http://x.com/a HTTP/1.1\r\n" ++
        [lit "Host: x.com\r\n", lit "A: 1\n", lit "A: 2\n"].flatten) = .ok t ∧ t.Body = [] ∧
      (∀ key, t.Headers.get key =
        lastValue ([lit "Host: x.com\r\n", lit "A: 1\n", lit "A: 2\n"].filterMap headerEntry)
          key) ∧
      ∀ l ∈ [lit "Host: x.com\r\n", lit "A: 1\n", lit "A: 2\n"],
        ∃ e v, headerEntry l = some e ∧ t.Headers.get e.1 = some v :=
  C7_headers_without_blank_line (lit "GET http://x.com/a HTTP/1.1\r\n") (lit "GET")
    (lit "http://x.com/a") [lit "HTTP/1.1"] [lit "Host: x.com\r\n", lit "A: 1\n", lit "A: 2\n"]
    (by decide) (by decide) (Or.inl (by decide)) (by decide)

/-! ## The round trip of the header map (C8) -/

theorem trimSpace_line (pre : Bytes) : trimSpace (pre ++ [10]) = trimSpace pre :=
  trimSpace_append_blank pre [10] (by decide)

theorem headerEntry_good (l : Bytes) (e : Bytes × Bytes) (hl : isLine l = true)
    (he : headerEntry l = some e) : GoodEntry e := by
  obtain ⟨pre, rfl, hpre⟩ := (isLine_iff l).1 hl
  simp only [headerEntry] at he
  split at he
  · cases he
  · rename_i i hi
    cases he
    have hlt := index_lt 58 _ i hi
    obtain ⟨h58, hget⟩ := index_take 58 _ i hi
    have hip : i < pre.length := by
      simp only [List.length_append, List.length_singleton] at hlt
      rcases Nat.lt_or_ge i pre.length with h | h
      · exact h
      · have e : i = pre.length := by omega
        subst e
        simp at hget
    have e1 : (pre ++ [10]).take i = pre.take i :=
      List.take_append_of_le_length (Nat.le_of_lt hip)
    have e2 : (pre ++ [10]).drop (i + 1) = pre.drop (i + 1) ++ [10] :=
      List.drop_append_of_le_length hip
    refine ⟨clean_trimSpace _, clean_trimSpace _, ?_, ?_, ?_⟩
    · exact fun h => h58 (trimSpace_mem _ _ h)
    · intro h
      have := trimSpace_mem _ _ h
      rw [e1] at this
      exact hpre (List.mem_of_mem_take this)
    · intro h
      rw [e2, trimSpace_line] at h
      have := trimSpace_mem _ _ h
      exact hpre (List.mem_of_mem_drop this)

theorem terminatedLines_isLine (r : Bytes) : ∀ l ∈ terminatedLines r, isLine l = true := by
  induction r with
  | nil => simp [terminatedLines]
  | cons c cs ih =>
    intro l hl
    by_cases hc : c = 10
    · simp only [terminatedLines, hc, if_true, List.mem_cons] at hl
      rcases hl with rfl | hl
      · decide
      · exact ih l hl
    · simp only [terminatedLines, hc, if_false] at hl
      split at hl
      · cases hl
      · rename_i l0 ls heq
        rcases List.mem_cons.1 hl with rfl | hl
        · obtain ⟨pre, hp, hn⟩ := (isLine_iff l0).1 (ih l0 (by rw [heq]; simp))
          refine (isLine_iff _).2 ⟨c :: pre, by rw [hp]; rfl, ?_⟩
          simp only [List.mem_cons, not_or]
          exact ⟨Ne.symm hc, hn⟩
        · exact ih l (by rw [heq]; simp [hl])

theorem Headers.mem_set (m : Headers) (k v : Bytes) (e : Bytes × Bytes)
    (h : e ∈ m.set k v) : e = (k, v) ∨ e ∈ m := by
  induction m with
  | nil => simpa [Headers.set] using h
  | cons x m ih =>
    obtain ⟨k0, v0⟩ := x
    by_cases h0 : k0 = k
    · subst h0
      simp only [Headers.set, if_true, List.mem_cons] at h
      rcases h with h | h
      · exact Or.inl h
      · exact Or.inr (List.mem_cons_of_mem _ h)
    · simp only [Headers.set, h0, if_false, List.mem_cons] at h
      rcases h with h | h
      · exact Or.inr (by rw [h]; simp)
      · rcases ih h with h | h
        · exact Or.inl h
        · exact Or.inr (List.mem_cons_of_mem _ h)

theorem Headers.set_of_not_mem (m : Headers) (k v : Bytes) (h : k ∉ m.map Prod.fst) :
    m.set k v = m ++ [(k, v)] := by
  induction m with
  | nil => rfl
  | cons x m ih =>
    obtain ⟨k0, v0⟩ := x
    simp only [List.map_cons, List.mem_cons, not_or] at h
    simp only [Headers.set, Ne.symm h.1, if_false, ih h.2, List.cons_append]

theorem Headers.nodup_set (m : Headers) (k v : Bytes) (h : (m.map Prod.fst).Nodup) :
    ((m.set k v).map Prod.fst).Nodup := by
  induction m with
  | nil => simp [Headers.set]
  | cons x m ih =>
    obtain ⟨k0, v0⟩ := x
    simp only [List.map_cons, List.nodup_cons] at h
    by_cases h0 : k0 = k
    · simp only [Headers.set, h0, if_true, List.map_cons, List.nodup_cons]
      rw [← h0]; exact h
    · simp only [Headers.set, h0, if_false, List.map_cons, List.nodup_cons]
      refine ⟨?_, ih h.2⟩
      intro hm
      obtain ⟨e, he, hk⟩ := List.mem_map.1 hm
      rcases Headers.mem_set m k v e he with rfl | he
      · exact h0 hk.symm
      · exact h.1 (List.mem_map.2 ⟨e, he, hk⟩)

theorem insertAll_mem (es : List (Bytes × Bytes)) (m : Headers) (e : Bytes × Bytes)
    (h : e ∈ insertAll es m) : e ∈ es ∨ e ∈ m := by
  induction es generalizing m with
  | nil => exact Or.inr h
  | cons x es ih =>
    have e1 : insertAll (x :: es) m = insertAll es (m.set x.1 x.2) := rfl
    rw [e1] at h
    rcases ih _ h with h | h
    · exact Or.inl (List.mem_cons_of_mem _ h)
    · rcases Headers.mem_set m _ _ e h with rfl | h
      · exact Or.inl (by simp)
      · exact Or.inr h

theorem insertAll_nodup (es : List (Bytes × Bytes)) (m : Headers)
    (h : (m.map Prod.fst).Nodup) : ((insertAll es m).map Prod.fst).Nodup := by
  induction es generalizing m with
  | nil => exact h
  | cons x es ih => exact ih _ (Headers.nodup_set m x.1 x.2 h)

/-- Entries with distinct keys go into the map as they are. -/
theorem insertAll_of_nodup (es : List (Bytes × Bytes)) (m : Headers)
    (h : ((m ++ es).map Prod.fst).Nodup) : insertAll es m = m ++ es := by
  induction es generalizing m with
  | nil => simp [insertAll]
  | cons x es ih =>
    have e1 : insertAll (x :: es) m = insertAll es (m.set x.1 x.2) := rfl
    have hx : x.1 ∉ m.map Prod.fst := by
      intro hm
      simp only [List.map_append, List.map_cons] at h
      exact (List.nodup_append.1 h).2.2 hm (by simp)
    have e2 : m ++ x :: es = (m ++ [x]) ++ es := by simp
    rw [e1, Headers.set_of_not_mem m x.1 x.2 hx, ih _ (by rw [← e2]; exact h), ← e2]

theorem Headers.get_of_mem (m : Headers) (k v : Bytes) (hn : (m.map Prod.fst).Nodup)
    (h : (k, v) ∈ m) : m.get k = some v := by
  induction m with
  | nil => cases h
  | cons x m ih =>
    obtain ⟨k0, v0⟩ := x
    simp only [List.map_cons, List.nodup_cons] at hn
    rcases List.mem_cons.1 h with h | h
    · cases h
      simp [Headers.get]
    · have hk : k0 ≠ k := fun e => hn.1 (List.mem_map.2 ⟨(k, v), h, e.symm⟩)
      simp only [Headers.get, hk, if_false]
      exact ih hn.2 h

theorem Headers.mem_of_get (m : Headers) (k v : Bytes) (h : m.get k = some v) :
    (k, v) ∈ m := by
  induction m with
  | nil => simp [Headers.get] at h
  | cons x m ih =>
    obtain ⟨k0, v0⟩ := x
    by_cases hk : k0 = k
    · simp only [Headers.get, hk, if_true, Option.some.injEq] at h
      simp [hk, h]
    · simp only [Headers.get, hk, if_false] at h
      exact List.mem_cons_of_mem _ (ih h)

theorem Headers.get_none_of_not_mem (m : Headers) (k : Bytes)
    (h : ∀ v, (k, v) ∉ m) : m.get k = none := by
  cases hg : m.get k with
  | none => rfl
  | some v => exact absurd (Headers.mem_of_get m k v hg) (h v)

/-- Two maps with distinct keys and the same entries read alike. -/
theorem Headers.get_perm (m1 m2 : Headers) (hp : m1.Perm m2)
    (hn : (m2.map Prod.fst).Nodup) (key : Bytes) : m1.get key = m2.get key := by
  have hn1 : (m1.map Prod.fst).Nodup := (hp.map Prod.fst).nodup_iff.2 hn
  cases hg : m2.get key with
  | some v =>
    exact Headers.get_of_mem m1 key v hn1 (hp.mem_iff.2 (Headers.mem_of_get m2 key v hg))
  | none =>
    refine Headers.get_none_of_not_mem m1 key (fun v hm => ?_)
    have := Headers.get_of_mem m2 key v hn (hp.mem_iff.1 hm)
    rw [hg] at this
    cases this

/-- The serialized line of an entry of the map gives the entry back. -/
theorem headerEntry_serialize (e : Bytes × Bytes) (h : GoodEntry e) :
    headerEntry (e.1 ++ lit ": " ++ e.2 ++ [10]) = some e := by
  obtain ⟨hk, hv, h58, -, -⟩ := h
  have el : e.1 ++ lit ": " ++ e.2 ++ [10] = e.1 ++ 58 :: ([32] ++ (e.2 ++ [10])) := by
    simp [lit]
  have hi : index 58 (e.1 ++ 58 :: ([32] ++ (e.2 ++ [10]))) = some e.1.length := by
    rw [index_append_left 58 e.1 _ h58]
    simp [index]
  have e1 : (e.1 ++ 58 :: ([32] ++ (e.2 ++ [10]))).take e.1.length = e.1 := by simp
  have e2 : (e.1 ++ 58 :: ([32] ++ (e.2 ++ [10]))).drop (e.1.length + 1) =
      [32] ++ (e.2 ++ [10]) := by
    rw [List.drop_append_eq_append_drop]
    simp [List.drop_eq_nil_of_le]
  rw [el]
  simp only [headerEntry, hi, e1, e2]
  rw [trimSpace_blank_append [32] _ (by decide), trimSpace_line,
    trimSpace_of_clean _ hk, trimSpace_of_clean _ hv]

theorem serialize_isLine (e : Bytes × Bytes) (h : GoodEntry e) :
    isLine (e.1 ++ lit ": " ++ e.2 ++ [10]) = true ∧
      trimSpace (e.1 ++ lit ": " ++ e.2 ++ [10]) ≠ [] := by
  obtain ⟨-, -, -, h1, h2⟩ := h
  constructor
  · refine (isLine_iff _).2 ⟨e.1 ++ lit ": " ++ e.2, rfl, ?_⟩
    simp only [List.mem_append, not_or]
    exact ⟨⟨h1, by decide⟩, h2⟩
  · intro hnil
    have : 58 ∈ trimSpace (e.1 ++ lit ": " ++ e.2 ++ [10]) :=
      colon_mem_trimSpace _ (by simp [lit])
    rw [hnil] at this
    cases this

/-- The map of a successful parse: its entries are good and its keys distinct. -/
theorem specHeaders_good (data : Bytes) :
    (∀ e ∈ specHeaders data, GoodEntry e) ∧ ((specHeaders data).map Prod.fst).Nodup := by
  constructor
  · intro e he
    rcases insertAll_mem _ _ e he with h | h
    · simp only [headerEntries, List.mem_filterMap] at h
      obtain ⟨l, hl, hle⟩ := h
      have hl1 : l ∈ (terminatedLines data).tail := List.takeWhile_subset _ hl
      exact headerEntry_good l e (terminatedLines_isLine data l (List.mem_of_mem_tail hl1)) hle
    · cases h
  · exact insertAll_nodup _ [] List.nodup_nil

theorem parsedHeaders_eq_spec (data : Bytes) (h : 10 ∈ data) :
    parsedHeaders data = specHeaders data := by
  have herr : (readString 10 data).2.2 = false := by
    cases hb : (readString 10 data).2.2 with
    | false => rfl
    | true => exact absurd h ((readString_err_iff 10 data).1 hb)
  obtain ⟨body, hrh⟩ := readHeaders_spec ((readString 10 data).2.1.length + 1)
    (readString 10 data).2.1 [] (Nat.lt_succ_self _)
  simp only [parsedHeaders, headerLoop, hrh, Option.getD_some, specHeaders, headerEntries,
    terminatedLines_readString data herr, List.tail_cons]

/-- What a successful parse tells of the input. -/
theorem parseRawRequest_ok_inv (data : Bytes) (t : RequestTemplate)
    (hok : parseRawRequest data = .ok t) :
    10 ∈ data ∧ ∃ method path tail, requestFields data = method :: path :: tail ∧
      resolveURL path (parsedHeaders data) = .ok t.URL ∧ t.Headers = parsedHeaders data := by
  by_cases hnl : 10 ∈ data
  swap
  · rw [parseRawRequest_noNewline data hnl] at hok; cases hok
  by_cases hs : (requestFields data).length < 2
  · rw [parseRawRequest_short data hnl hs] at hok; cases hok
  match hf : requestFields data, hs with
  | [], hs => simp at hs
  | [_], hs => simp at hs
  | method :: path :: tail, _ =>
    rw [parseRawRequest_fields data method path tail hnl hf] at hok
    refine ⟨hnl, method, path, tail, rfl, ?_⟩
    split at hok
    · cases hok
    · rename_i url hurl
      cases hok
      exact ⟨hurl, rfl⟩

theorem resolveURL_congr (path : Bytes) (h1 h2 : Headers)
    (h : h1.get (lit "Host") = h2.get (lit "Host")) :
    resolveURL path h1 = resolveURL path h2 := by
  simp only [resolveURL, h]

theorem filterMap_serialize (es : List (Bytes × Bytes)) (h : ∀ e ∈ es, GoodEntry e) :
    (es.map (fun e => e.1 ++ lit ": " ++ e.2 ++ [10])).filterMap headerEntry = es := by
  induction es with
  | nil => rfl
  | cons e es ih =>
    simp only [List.map_cons, List.filterMap_cons, headerEntry_serialize e (h e (by simp))]
    rw [ih (fun x hx => h x (by simp [hx]))]

/-- C8: the header map of a successful parse, written out as one line
`key: value` per entry, in any order, after the same request line and followed
by a blank line, parses again, to a map that reads as the first one for every
key. -/
theorem C8_headers_round_trip (data : Bytes) (t : RequestTemplate)
    (es : List (Bytes × Bytes)) (hok : parseRawRequest data = .ok t)
    (hperm : es.Perm t.Headers) :
    ∃ t2, parseRawRequest ((readString 10 data).1 ++ serialize es ++ [10]) = .ok t2 ∧
      ∀ key, t2.Headers.get key = t.Headers.get key := by
  obtain ⟨hnl, method, path, tail, hf, hurl, hH⟩ := parseRawRequest_ok_inv data t hok
  rw [← hH] at hurl
  rw [parsedHeaders_eq_spec data hnl] at hH
  obtain ⟨hgood, hnodup⟩ := specHeaders_good data
  rw [← hH] at hgood hnodup
  have hes : ∀ e ∈ es, GoodEntry e := fun e he => hgood e (hperm.mem_iff.1 he)
  have hesn : (es.map Prod.fst).Nodup := (hperm.map Prod.fst).nodup_iff.2 hnodup
  have hget : ∀ key, Headers.get es key = t.Headers.get key :=
    fun key => Headers.get_perm es t.Headers hperm hnodup key
  have herr : (readString 10 data).2.2 = false := by
    cases hb : (readString 10 data).2.2 with
    | false => rfl
    | true => exact absurd hnl ((readString_err_iff 10 data).1 hb)
  have hfl : isLine (readString 10 data).1 = true := by
    obtain ⟨pre, h1, h2, -⟩ := readString_split 10 data herr
    exact (isLine_iff _).2 ⟨pre, h2, h1⟩
  have hrs := readString_line (readString 10 data).1 (serialize es ++ [10]) hfl
  have hlines : ∀ l ∈ es.map (fun e => e.1 ++ lit ": " ++ e.2 ++ [10]),
      isLine l = true ∧ trimSpace l ≠ [] := by
    intro l hl
    obtain ⟨e, he, rfl⟩ := List.mem_map.1 hl
    exact serialize_isLine e (hes e he)
  have hrh := readHeaders_lines (es.map (fun e => e.1 ++ lit ": " ++ e.2 ++ [10])) [10] []
    (fun n headers => by simp [readHeaders, readString]) hlines
    ((serialize es ++ [10]).length + 1) [] (Nat.lt_succ_self _)
  rw [filterMap_serialize es hes, insertAll_of_nodup es [] (by simpa using hesn)] at hrh
  simp only [List.nil_append] at hrh
  have hurl2 : resolveURL path es = .ok t.URL := by
    rw [resolveURL_congr path es t.Headers (hget _)]; exact hurl
  simp only [requestFields, requestLine] at hf
  refine ⟨{ Name := [], Method := method, URL := t.URL, Headers := es, Body := [] }, ?_, hget⟩
  rw [List.append_assoc]
  simp only [parseRawRequest, hrs, Bool.false_eq_true, if_false, hf]
  simp only [serialize] at hrh ⊢
  rw [hrh]
  simp only [hurl2]

/-- Scenario A with one more header: the two entries written out in the other
order parse to a map that reads alike. -/
theorem C8_headers_round_trip_witness :
    ∃ t2, parseRawRequest ((readString 10
          (lit "GET /foo HTTP/1.1\r\nHost:  example.com \r\nA:b:c\r\n\r\n")).1 ++
        serialize [(lit "A", lit "b:c"), (lit "Host", lit "example.com")] ++ [10]) = .ok t2 ∧
      ∀ key, t2.Headers.get key =
        Headers.get [(lit "Host", lit "example.com"), (lit "A", lit "b:c")] key :=
  C8_headers_round_trip (lit "GET /foo HTTP/1.1\r\nHost:  example.com \r\nA:b:c\r\n\r\n")
    { Name := [], Method := lit "GET", URL := lit "https://example.com/foo",
      Headers := [(lit "Host", lit "example.com"), (lit "A", lit "b:c")], Body := [] }
    [(lit "A", lit "b:c"), (lit "Host", lit "example.com")] rfl
    (List.Perm.swap _ _ _)

end Crawler
